import Mathlib

/-
Verification of the matching-core specification of the
hybrid-trading-simulator repository against its source.

The repository sources available are:
  backend/app/api.py       (FastAPI request layer)
  backend/app/consumer.py  (RabbitMQ settlement consumer)
  create_private_key.py    (key generation helper, out of scope here)

The matching engine itself (backend/app/matching_engine.py, providing
`Order`, `order_books`, `OrderBook.add_order` and
`OrderBook.get_order_book_data`) is imported by api.py but is not among
the sources; where a definition depends on it, the definition is
modelled from the specification and marked as such in its doc comment.
Everything else is translated directly from api.py / consumer.py.

Conventions: prices and amounts are natural numbers in their smallest
indivisible unit (the spec's "fixed-precision integers"); mutation is
modelled by explicit state passing; Python exceptions are modelled with
Except.
-/

namespace CryptoSim

/-- Modelled from the spec: the buy/sell side of an order (§3; the Order
pydantic model lives in the missing matching_engine.py). -/
inductive Side
  | buy
  | sell
deriving DecidableEq, Repr

/-- Modelled from the spec: market vs limit order type (§3). -/
inductive OrderType
  | market
  | limit
deriving DecidableEq, Repr

/-- Modelled from the spec: the Order record (§3, matching_engine.py is
not among the sources). `remaining_amount` starts equal to `amount` and
is decremented as fills occur. -/
structure Order where
  order_id : Nat
  pair : String
  side : Side
  order_type : OrderType
  price : Option Nat
  amount : Nat
  submitted_at : Nat
  remaining_amount : Nat
  user_id : String
deriving DecidableEq, Repr

/-- Modelled from the spec: the Trade record (§3). `price` is the resting
(maker) order's price. -/
structure Trade where
  trade_id : Nat
  pair : String
  buyer_order_id : Nat
  seller_order_id : Nat
  buyer_user_id : String
  seller_user_id : String
  price : Nat
  amount : Nat
  matched_at : Nat
deriving DecidableEq, Repr

/-- Modelled from the spec: a Price Level Ledger (§3): a mapping from
price to the queue of resting orders at that price, insertion order
preserved.  Represented as an association list kept sorted best price
first (descending for bids, ascending for asks). -/
abbrev Ledger := List (Nat × List Order)

/-- Modelled from the spec: an Order Book owns the bid and ask ledgers of
one pair (§3).  `next_trade_id` generates the fresh unique trade ids. -/
structure OrderBook where
  pair : String
  bids : Ledger
  asks : Ledger
  next_trade_id : Nat
deriving DecidableEq, Repr

/-- Modelled from the spec: a freshly created Order Book for one pair. -/
def OrderBook.empty (pair : String) : OrderBook :=
  { pair := pair, bids := [], asks := [], next_trade_id := 0 }

/-- Modelled from the spec: trade construction (§4.1 step 2): price is the
resting order's (level) price, buyer/seller fields resolved from each
side.  The trade id is assigned afterwards by `assignIds`. -/
def mkTrade (inc r : Order) (levelPrice m : Nat) : Trade :=
  match inc.side with
  | Side.buy =>
    { trade_id := 0, pair := inc.pair,
      buyer_order_id := inc.order_id, seller_order_id := r.order_id,
      buyer_user_id := inc.user_id, seller_user_id := r.user_id,
      price := levelPrice, amount := m, matched_at := inc.submitted_at }
  | Side.sell =>
    { trade_id := 0, pair := inc.pair,
      buyer_order_id := r.order_id, seller_order_id := inc.order_id,
      buyer_user_id := r.user_id, seller_user_id := inc.user_id,
      price := levelPrice, amount := m, matched_at := inc.submitted_at }

/-- The resting (maker) side order id recorded in a trade, given the
incoming (taker) order's side. -/
def makerOrderId (s : Side) (t : Trade) : Nat :=
  match s with
  | Side.buy => t.seller_order_id
  | Side.sell => t.buyer_order_id

/-- Modelled from the spec: eligibility of the incoming order against the
best opposing price (§4.1 step 2): market orders always eligible; a limit
buy while best ask ≤ its price; a limit sell while best bid ≥ its price. -/
def eligible (inc : Order) (bestPrice : Nat) : Bool :=
  match inc.order_type, inc.price, inc.side with
  | OrderType.market, _, _ => true
  | OrderType.limit, none, _ => false
  | OrderType.limit, some lp, Side.buy => decide (bestPrice ≤ lp)
  | OrderType.limit, some lp, Side.sell => decide (lp ≤ bestPrice)

/-- Modelled from the spec: the inner matching loop over one price level's
queue (§4.1 step 2).  `rem` is the incoming order's remaining amount;
matched amount is min of the two remainders; a fully filled resting order
is removed.  Returns the trades, the new incoming remainder and the new
queue. -/
def matchQueue (inc : Order) (levelPrice : Nat) : Nat → List Order → List Trade × Nat × List Order
  | rem, [] => ([], rem, [])
  | rem, r :: rs =>
    if 0 < rem then
      let m := min rem r.remaining_amount
      if r.remaining_amount - m = 0 then
        let rest := matchQueue inc levelPrice (rem - m) rs
        (mkTrade inc r levelPrice m :: rest.1, rest.2)
      else
        ([mkTrade inc r levelPrice m], rem - m,
          { r with remaining_amount := r.remaining_amount - m } :: rs)
    else ([], rem, r :: rs)

/-- Modelled from the spec: the matching loop over the opposing ledger
(§4.1 step 2): repeat while the incoming remainder is positive and the
best opposing price is eligible; emptied price levels are removed. -/
def matchLedger (inc : Order) : Nat → Ledger → List Trade × Nat × Ledger
  | rem, [] => ([], rem, [])
  | rem, (p, q) :: lvls =>
    if 0 < rem ∧ eligible inc p = true then
      let step := matchQueue inc p rem q
      if step.2.2 = [] then
        let rest := matchLedger inc step.2.1 lvls
        (step.1 ++ rest.1, rest.2)
      else
        (step.1, step.2.1, (p, step.2.2) :: lvls)
    else ([], rem, (p, q) :: lvls)

/-- Modelled from the spec: priority of prices on the bid ledger (higher
price first). -/
def bidBetter (p q : Nat) : Bool :=
  decide (q < p)

/-- Modelled from the spec: priority of prices on the ask ledger (lower
price first). -/
def askBetter (p q : Nat) : Bool :=
  decide (p < q)

/-- The price priority used on the ledger where orders of side `s` rest. -/
def betterFor : Side → Nat → Nat → Bool
  | Side.buy => bidBetter
  | Side.sell => askBetter

/-- Modelled from the spec: insertion of a resting remainder at the tail
of its own side's queue at its price (§4.1 step 3), keeping the ledger
sorted best price first. -/
def insertLedger (better : Nat → Nat → Bool) (p : Nat) (o : Order) : Ledger → Ledger
  | [] => [(p, [o])]
  | (q, l) :: rest =>
    if p = q then (q, l ++ [o]) :: rest
    else if better p q then (p, [o]) :: (q, l) :: rest
    else (q, l) :: insertLedger better p o rest

/-- Modelled from the spec: trade ids are newly generated and unique; ids
are assigned consecutively from the book's counter. -/
def assignIds (base : Nat) : List Trade → List Trade
  | [] => []
  | t :: ts => { t with trade_id := base } :: assignIds (base + 1) ts

/-- The ledger an incoming order of side `s` matches against. -/
def oppLedger (b : OrderBook) : Side → Ledger
  | Side.buy => b.asks
  | Side.sell => b.bids

/-- The ledger an incoming order of side `s` would rest on. -/
def ownLedger (b : OrderBook) : Side → Ledger
  | Side.buy => b.bids
  | Side.sell => b.asks

/-- Write back the opposing and own ledgers after matching an order of
side `s`, and the trade id counter. -/
def setLedgers (b : OrderBook) (s : Side) (opp own : Ledger) (n : Nat) : OrderBook :=
  match s with
  | Side.buy => { b with asks := opp, bids := own, next_trade_id := n }
  | Side.sell => { b with bids := opp, asks := own, next_trade_id := n }

/-- Modelled from the spec: the error raised by `submit` when an order
violates a precondition (§4.1, §7). -/
inductive EngineError
  | validation (msg : String)
deriving DecidableEq, Repr

/-- Modelled from the spec: `submit(order)` of the Order Book (§4.1;
matching_engine.add_order is not among the sources).  Validation happens
before any book mutation; then the matching algorithm runs against the
opposing ledger; a market residual is discarded while a limit residual
rests at the tail of its price level on its own side. -/
def OrderBook.submit (b : OrderBook) (o : Order) :
    Except EngineError (List Trade × Option Order × OrderBook) :=
  if o.pair ≠ b.pair then
    Except.error (EngineError.validation "order pair does not match this book")
  else if o.amount = 0 then
    Except.error (EngineError.validation "order amount must be strictly positive")
  else if o.order_type = OrderType.limit ∧ o.price.getD 0 = 0 then
    Except.error (EngineError.validation "limit orders must carry a strictly positive price")
  else
    let res := matchLedger o o.amount (oppLedger b o.side)
    let fills := assignIds b.next_trade_id res.1
    let resting : Option Order :=
      if o.order_type = OrderType.limit ∧ 0 < res.2.1 then
        some { o with remaining_amount := res.2.1 }
      else none
    let own :=
      match resting with
      | some ro => insertLedger (betterFor o.side) (o.price.getD 0) ro (ownLedger b o.side)
      | none => ownLedger b o.side
    Except.ok (fills, resting,
      setLedgers b o.side res.2.2 own (b.next_trade_id + fills.length))

/-- The sum of the remaining amounts of a queue of orders. -/
def sumRemaining : List Order → Nat
  | [] => 0
  | o :: os => o.remaining_amount + sumRemaining os

/-- The order book data returned by the query endpoint: price levels with
aggregated amounts, best price first (api.py class OrderBookData). -/
structure OrderBookData where
  bids : List (Nat × Nat)
  asks : List (Nat × Nat)
deriving DecidableEq, Repr

/-- Modelled from the spec: snapshot() of the Order Book (§4.1;
matching_engine.get_order_book_data is not among the sources): per-level
aggregation of remaining amounts, best price first on each side. -/
def OrderBook.get_order_book_data (b : OrderBook) : OrderBookData :=
  { bids := b.bids.map (fun lvl => (lvl.1, sumRemaining lvl.2)),
    asks := b.asks.map (fun lvl => (lvl.1, sumRemaining lvl.2)) }

/-- The registry of order books, from api.py's `order_books` dictionary
(one book per configured pair, fixed at startup). -/
abbrev Registry := List (String × OrderBook)

/-- Dictionary lookup, as `order_books.get(pair)` in api.py. -/
def Registry.lookup : Registry → String → Option OrderBook
  | [], _ => none
  | (k, b) :: rest, pair => if k = pair then some b else Registry.lookup rest pair

/-- Write back a mutated order book, modelling in-place mutation of the
book stored in the dictionary. -/
def Registry.update : Registry → String → OrderBook → Registry
  | [], _, _ => []
  | (k, b) :: rest, pair, nb =>
    if k = pair then (k, nb) :: rest else (k, b) :: Registry.update rest pair nb

/-- HTTP errors raised by the api.py endpoints. -/
inductive HttpError
  | badRequest (detail : String)
  | internalServerError (detail : String)
deriving DecidableEq, Repr

/-- The body returned by a successful place_order call (api.py line 85). -/
structure PlaceOrderResponse where
  message : String
  order_id : Nat
deriving DecidableEq, Repr

/-- From api.py place_order (lines 54-90): look up the pair's book (400
"Invalid trading pair" when absent), reject a limit order without a price
(400), then hand the order to the engine; any engine exception becomes a
500 and the registry is unchanged.  On success only a message and the
order id are returned. -/
def place_order (books : Registry) (o : Order) :
    Except HttpError PlaceOrderResponse × Registry :=
  match Registry.lookup books o.pair with
  | none => (Except.error (HttpError.badRequest "Invalid trading pair"), books)
  | some book =>
    if o.order_type = OrderType.limit ∧ o.price = none then
      (Except.error (HttpError.badRequest "Limit orders must specify a price"), books)
    else
      match book.submit o with
      | Except.ok r =>
        (Except.ok { message := "Order submitted successfully", order_id := o.order_id },
          Registry.update books o.pair r.2.2)
      | Except.error _ =>
        (Except.error (HttpError.internalServerError "Internal server error while processing order."),
          books)

/-- From api.py get_order_book_endpoint (lines 93-105): an unknown pair
returns empty bids and asks, it does not raise. -/
def get_order_book_endpoint (books : Registry) (pair : String) :
    Except HttpError OrderBookData :=
  match Registry.lookup books pair with
  | none => Except.ok { bids := [], asks := [] }
  | some book => Except.ok book.get_order_book_data

/-- One message pushed on the /ws/marketdata websocket (api.py line 138). -/
structure WsMessage where
  type : String
  data : OrderBookData
deriving DecidableEq, Repr

/-- From api.py websocket_endpoint (lines 124-157), one loop iteration.
The handler calls get_order_book_endpoint(pair="BTC-USD") directly as a
plain function (line 134), so no FastAPI response-model coercion applies
to its return value.  When "BTC-USD" is configured, that call returns
the pydantic OrderBookData model built from the book, line 138's
`order_book_data.dict()` succeeds, one update message is sent, and the
loop pauses for one second (the returned Nat, from asyncio.sleep(1)).
When "BTC-USD" is absent from the registry, the call returns the plain
dict literal of api.py line 100, which has no `.dict()` method: line 138
raises AttributeError, the outer except-Exception handler (line 152)
terminates the websocket handler, and no message is sent — modelled as
`none`. -/
def websocket_iteration (books : Registry) : Option (WsMessage × Nat) :=
  match Registry.lookup books "BTC-USD" with
  | some book =>
    some ({ type := "orderbook_update", data := book.get_order_book_data }, 1)
  | none => none

/-- The possible dispositions of a consumed settlement message
(consumer.py on_message): acknowledged, nack without requeue (dropped),
or nack with requeue (redelivered). -/
inductive MsgOutcome
  | ack
  | nackDrop
  | nackRequeue
deriving DecidableEq, Repr

/-- dict.get on the parsed JSON object: none when the key is missing
(Python None), as in consumer.py lines 68-76. -/
def jsonGet : List (String × ℚ) → String → Option ℚ
  | [], _ => none
  | (k, v) :: rest, key => if k = key then some v else jsonGet rest key

/-- From consumer.py on_message (lines 54-108).  `none` models a body that
is not valid JSON: json.loads raises JSONDecodeError and the handler
nacks without requeue.  Otherwise the fields are read with dict.get
(which never raises; the string fields trade_id / buyer_user_id /
seller_user_id are only logged, so numeric fields suffice for the
outcome).  When "price" or "amount" is missing, .get returns None and
`None * (10**18)` raises TypeError, which is caught by the generic
`except Exception` handler: nack WITH requeue.  The dedicated
`except KeyError` branch is unreachable because no indexed dict access
occurs.  The on-chain settlement itself is mocked and always succeeds,
after which the message.process() context manager acknowledges. -/
def on_message (body : Option (List (String × ℚ))) : MsgOutcome :=
  match body with
  | none => MsgOutcome.nackDrop
  | some fields =>
    match jsonGet fields "price", jsonGet fields "amount" with
    | some _, some _ => MsgOutcome.ack
    | _, _ => MsgOutcome.nackRequeue

/-- Round num/den to the nearest integer, ties to even (the IEEE-754
rounding used by Python float arithmetic). -/
def rnInt (num den : Nat) : Nat :=
  let q := num / den
  let r := num % den
  if 2 * r < den then q
  else if den < 2 * r then q + 1
  else if q % 2 = 0 then q else q + 1

/-- Whether 2^e ≤ num/den, by exact integer cross-multiplication. -/
def le2pow (num den : Nat) (e : ℤ) : Bool :=
  match e with
  | Int.ofNat k => decide (den * 2 ^ k ≤ num)
  | Int.negSucc k => decide (den ≤ num * 2 ^ (k + 1))

/-- The binary exponent of num/den: the largest e with 2^e ≤ num/den,
scanned over the range [-100, 100], which covers every value arising in
the settlement computations below. -/
def floorLog2Frac (num den : Nat) : ℤ :=
  (List.range 201).foldl
    (fun acc i => if le2pow num den ((i : ℤ) - 100) then (i : ℤ) - 100 else acc)
    (-100)

/-- The IEEE-754 double-precision value nearest to num/den (as an exact
fraction): the 53-bit significand m with num/den ≈ m * 2^(e-52), rounded
to nearest, ties to even.  This is the value Python's float (and
json.loads) gives to the decimal literal num/den. -/
def flFrac (num den : Nat) : Nat × Nat :=
  let e := floorLog2Frac num den
  match 52 - e with
  | Int.ofNat k => (rnInt (num * 2 ^ k) den, 2 ^ k)
  | Int.negSucc k => (rnInt num (den * 2 ^ (k + 1)) * 2 ^ (k + 1), 1)

/-- From consumer.py line 75: `price = int(trade_data.get("price") * (10**18))`
with Python float semantics, for a JSON price literal num/den: json.loads
parses it to the nearest double, the multiplication by 10**18 (exactly
representable) rounds its result to the nearest double, and int()
truncates. -/
def toWei (num den : Nat) : Nat :=
  let f1 := flFrac num den
  let f2 := flFrac (f1.1 * 10 ^ 18) f1.2
  f2.1 / f2.2

/-- The total amount of a list of trades. -/
def sumAmounts : List Trade → Nat
  | [] => 0
  | t :: ts => t.amount + sumAmounts ts

/-- The sum of a list of naturals. -/
def sumN : List Nat → Nat
  | [] => 0
  | n :: ns => n + sumN ns

/-- The resting orders of a ledger in book order: best price level first,
arrival order within a level. -/
def ledgerOrders : Ledger → List Order
  | [] => []
  | (_, q) :: lvls => q ++ ledgerOrders lvls

/-- The price keys of a ledger, best first. -/
def prices (L : Ledger) : List Nat :=
  L.map Prod.fst

/-- The amounts the matching loop would match stepping greedily through a
queue of resting orders: each step matches min of the incoming remainder
and the resting order's remainder. -/
def greedyAmounts : Nat → List Order → List Nat
  | _, [] => []
  | rem, r :: rs =>
    min rem r.remaining_amount :: greedyAmounts (rem - min rem r.remaining_amount) rs

/-- The total remaining amount booked in a queue under a given order id. -/
def remOfQ (oid : Nat) : List Order → Nat
  | [] => 0
  | o :: os => (if o.order_id = oid then o.remaining_amount else 0) + remOfQ oid os

/-- The total remaining amount booked in a ledger under a given order id. -/
def remOfL (oid : Nat) (L : Ledger) : Nat :=
  remOfQ oid (ledgerOrders L)

/-- The total traded amount of the fills whose maker is a given order id. -/
def fillsFor (s : Side) (oid : Nat) : List Trade → Nat
  | [] => 0
  | t :: ts => (if makerOrderId s t = oid then t.amount else 0) + fillsFor s oid ts

theorem mkTrade_maker (inc r : Order) (p m : Nat) :
    makerOrderId inc.side (mkTrade inc r p m) = r.order_id := by
  cases h : inc.side <;> simp [mkTrade, makerOrderId, h]

theorem mkTrade_amount (inc r : Order) (p m : Nat) :
    (mkTrade inc r p m).amount = m := by
  cases h : inc.side <;> simp [mkTrade, h]

theorem mkTrade_price (inc r : Order) (p m : Nat) :
    (mkTrade inc r p m).price = p := by
  cases h : inc.side <;> simp [mkTrade, h]

theorem sumAmounts_append (ts₁ ts₂ : List Trade) :
    sumAmounts (ts₁ ++ ts₂) = sumAmounts ts₁ + sumAmounts ts₂ := by
  induction ts₁ with
  | nil => simp [sumAmounts]
  | cons t ts ih => simp [sumAmounts, ih]; omega

theorem remOfQ_append (oid : Nat) (q₁ q₂ : List Order) :
    remOfQ oid (q₁ ++ q₂) = remOfQ oid q₁ + remOfQ oid q₂ := by
  induction q₁ with
  | nil => simp [remOfQ]
  | cons o os ih => simp [remOfQ, ih]; omega

theorem fillsFor_append (s : Side) (oid : Nat) (ts₁ ts₂ : List Trade) :
    fillsFor s oid (ts₁ ++ ts₂) = fillsFor s oid ts₁ + fillsFor s oid ts₂ := by
  induction ts₁ with
  | nil => simp [fillsFor]
  | cons t ts ih => simp [fillsFor, ih]; omega

theorem fillsFor_member_le (s : Side) (ts : List Trade) (t : Trade) (ht : t ∈ ts) :
    t.amount ≤ fillsFor s (makerOrderId s t) ts := by
  induction ts with
  | nil => cases ht
  | cons u us ih =>
    rcases List.mem_cons.mp ht with h | h
    · subst h
      simp [fillsFor]
    · have := ih h
      simp [fillsFor]
      omega

theorem greedy_length (rem : Nat) (os : List Order) :
    (greedyAmounts rem os).length = os.length := by
  induction os generalizing rem with
  | nil => rfl
  | cons r rs ih => simp [greedyAmounts, ih]

theorem greedy_append (os₁ os₂ : List Order) (rem : Nat) :
    greedyAmounts rem (os₁ ++ os₂) =
      greedyAmounts rem os₁ ++ greedyAmounts (rem - sumN (greedyAmounts rem os₁)) os₂ := by
  induction os₁ generalizing rem with
  | nil => simp [greedyAmounts, sumN]
  | cons r rs ih =>
    simp only [List.cons_append, greedyAmounts, sumN, List.append_eq, List.cons.injEq, true_and]
    rw [ih]
    congr 2
    omega

theorem greedy_mem_le (rem : Nat) (os : List Order) (x : Nat)
    (hx : x ∈ greedyAmounts rem os) : x ≤ rem := by
  induction os generalizing rem with
  | nil => cases hx
  | cons r rs ih =>
    rcases List.mem_cons.mp hx with h | h
    · omega
    · have := ih (rem - min rem r.remaining_amount) h
      omega

theorem take_append_left {α : Type} (l₁ l₂ : List α) (n : Nat) :
    (l₁ ++ l₂).take (l₁.length + n) = l₁ ++ l₂.take n := by
  induction l₁ with
  | nil => simp
  | cons a as ih => simp [List.take, Nat.succ_add, ih]

theorem take_append_le {α : Type} (l₁ l₂ : List α) (n : Nat) (h : n ≤ l₁.length) :
    (l₁ ++ l₂).take n = l₁.take n := by
  induction l₁ generalizing n with
  | nil =>
    have : n = 0 := by simpa using h
    subst this
    simp
  | cons a as ih =>
    cases n with
    | zero => simp
    | succ k => simp at h; simp [List.take, ih k h]

theorem matchQueue_conservation (inc : Order) (p : Nat) (q : List Order) (rem : Nat) :
    rem = (matchQueue inc p rem q).2.1 + sumAmounts (matchQueue inc p rem q).1 := by
  induction q generalizing rem with
  | nil => simp [matchQueue, sumAmounts]
  | cons r rs ih =>
    simp only [matchQueue]
    split
    · split
      · have := ih (rem - min rem r.remaining_amount)
        simp only [sumAmounts, mkTrade_amount]
        omega
      · simp only [sumAmounts, mkTrade_amount]
        omega
    · simp [sumAmounts]

theorem matchQueue_len_le (inc : Order) (p : Nat) (q : List Order) (rem : Nat) :
    (matchQueue inc p rem q).1.length ≤ q.length := by
  induction q generalizing rem with
  | nil => simp [matchQueue]
  | cons r rs ih =>
    simp only [matchQueue]
    split
    · split
      · have := ih (rem - min rem r.remaining_amount)
        simp only [List.length_cons, List.length]
        omega
      · simp
    · simp

theorem matchQueue_makers (inc : Order) (p : Nat) (q : List Order) (rem : Nat) :
    (matchQueue inc p rem q).1.map (makerOrderId inc.side) =
      (q.take (matchQueue inc p rem q).1.length).map (fun o => o.order_id) := by
  induction q generalizing rem with
  | nil => simp [matchQueue]
  | cons r rs ih =>
    simp only [matchQueue]
    split
    · split
      · simp only [List.length_cons, List.take_succ_cons, List.map_cons, mkTrade_maker,
          List.cons.injEq, true_and]
        exact ih (rem - min rem r.remaining_amount)
      · simp [mkTrade_maker]
    · simp

theorem matchQueue_amounts (inc : Order) (p : Nat) (q : List Order) (rem : Nat) :
    (matchQueue inc p rem q).1.map (fun t => t.amount) =
      (greedyAmounts rem q).take (matchQueue inc p rem q).1.length := by
  induction q generalizing rem with
  | nil => simp [matchQueue]
  | cons r rs ih =>
    simp only [matchQueue]
    split
    · split
      · simp only [greedyAmounts, List.length_cons, List.take_succ_cons, List.map_cons,
          mkTrade_amount, List.cons.injEq, true_and]
        exact ih (rem - min rem r.remaining_amount)
      · simp [greedyAmounts, mkTrade_amount]
    · simp

theorem matchQueue_stop (inc : Order) (p : Nat) (q : List Order) (rem : Nat)
    (h : (matchQueue inc p rem q).2.2 ≠ []) : (matchQueue inc p rem q).2.1 = 0 := by
  induction q generalizing rem with
  | nil => simp [matchQueue] at h
  | cons r rs ih =>
    by_cases h0 : 0 < rem
    · by_cases hfull : r.remaining_amount - min rem r.remaining_amount = 0
      · simp only [matchQueue, if_pos h0, if_pos hfull] at h ⊢
        exact ih (rem - min rem r.remaining_amount) h
      · simp only [matchQueue, if_pos h0, if_neg hfull] at h ⊢
        omega
    · simp only [matchQueue, if_neg h0] at h ⊢
      omega

theorem matchQueue_all_consumed (inc : Order) (p : Nat) (q : List Order) (rem : Nat)
    (h : (matchQueue inc p rem q).2.2 = []) :
    (matchQueue inc p rem q).1.length = q.length := by
  induction q generalizing rem with
  | nil => simp [matchQueue]
  | cons r rs ih =>
    by_cases h0 : 0 < rem
    · by_cases hfull : r.remaining_amount - min rem r.remaining_amount = 0
      · simp only [matchQueue, if_pos h0, if_pos hfull] at h ⊢
        simp only [List.length_cons]
        rw [ih _ h]
      · simp only [matchQueue, if_pos h0, if_neg hfull] at h
        exact absurd h (by simp)
    · simp only [matchQueue, if_neg h0] at h
      exact absurd h (by simp)

theorem matchQueue_pos (inc : Order) (p : Nat) (q : List Order) (rem : Nat)
    (hq : ∀ o ∈ q, 0 < o.remaining_amount) :
    ∀ o ∈ (matchQueue inc p rem q).2.2, 0 < o.remaining_amount := by
  induction q generalizing rem with
  | nil => simp [matchQueue]
  | cons r rs ih =>
    by_cases h0 : 0 < rem
    · by_cases hfull : r.remaining_amount - min rem r.remaining_amount = 0
      · simp only [matchQueue, if_pos h0, if_pos hfull]
        exact ih _ (fun o ho => hq o (List.mem_cons_of_mem _ ho))
      · simp only [matchQueue, if_pos h0, if_neg hfull]
        intro o ho
        rcases List.mem_cons.mp ho with h | h
        · subst h
          simp only []
          omega
        · exact hq o (List.mem_cons_of_mem _ h)
    · simp only [matchQueue, if_neg h0]
      exact hq

theorem matchQueue_remOf (inc : Order) (p : Nat) (q : List Order) (rem oid : Nat) :
    remOfQ oid q =
      remOfQ oid (matchQueue inc p rem q).2.2 + fillsFor inc.side oid (matchQueue inc p rem q).1 := by
  induction q generalizing rem with
  | nil => simp [matchQueue, remOfQ, fillsFor]
  | cons r rs ih =>
    by_cases h0 : 0 < rem
    · by_cases hfull : r.remaining_amount - min rem r.remaining_amount = 0
      · simp only [matchQueue, if_pos h0, if_pos hfull, remOfQ, fillsFor,
          mkTrade_maker, mkTrade_amount]
        have := ih (rem - min rem r.remaining_amount)
        by_cases hid : r.order_id = oid
        · simp only [if_pos hid]
          omega
        · simp only [if_neg hid]
          omega
      · simp only [matchQueue, if_pos h0, if_neg hfull, remOfQ, fillsFor,
          mkTrade_maker, mkTrade_amount]
        by_cases hid : r.order_id = oid
        · simp only [if_pos hid]
          omega
        · simp only [if_neg hid]
          omega
    · simp [matchQueue, if_neg h0, fillsFor]

theorem matchQueue_pos_trades (inc : Order) (p : Nat) (q : List Order) (rem : Nat)
    (hq : ∀ o ∈ q, 0 < o.remaining_amount) :
    ∀ t ∈ (matchQueue inc p rem q).1, 0 < t.amount := by
  induction q generalizing rem with
  | nil => simp [matchQueue]
  | cons r rs ih =>
    by_cases h0 : 0 < rem
    · have hr : 0 < r.remaining_amount := hq r (List.mem_cons_self r rs)
      by_cases hfull : r.remaining_amount - min rem r.remaining_amount = 0
      · simp only [matchQueue, if_pos h0, if_pos hfull]
        intro t ht
        rcases List.mem_cons.mp ht with h | h
        · subst h
          rw [mkTrade_amount]
          omega
        · exact ih _ (fun o ho => hq o (List.mem_cons_of_mem _ ho)) t h
      · simp only [matchQueue, if_pos h0, if_neg hfull]
        intro t ht
        rcases List.mem_cons.mp ht with h | h
        · subst h
          rw [mkTrade_amount]
          omega
        · cases h
    · simp [matchQueue, if_neg h0]

/-- Every price level of a ledger is a nonempty queue of partially
unfilled (positive remainder) orders — the Price Level Ledger invariant
of spec §3. -/
def LedgerPosP (L : Ledger) : Prop :=
  ∀ lvl ∈ L, lvl.2 ≠ [] ∧ ∀ o ∈ lvl.2, 0 < o.remaining_amount

theorem matchLedger_conservation (inc : Order) (L : Ledger) (rem : Nat) :
    rem = (matchLedger inc rem L).2.1 + sumAmounts (matchLedger inc rem L).1 := by
  induction L generalizing rem with
  | nil => simp [matchLedger, sumAmounts]
  | cons lvl lvls ih =>
    obtain ⟨p, q⟩ := lvl
    by_cases hg : 0 < rem ∧ eligible inc p = true
    · by_cases he : (matchQueue inc p rem q).2.2 = []
      · simp only [matchLedger, if_pos hg, if_pos he, sumAmounts_append]
        have h1 := matchQueue_conservation inc p q rem
        have h2 := ih (matchQueue inc p rem q).2.1
        omega
      · simp only [matchLedger, if_pos hg, if_neg he]
        exact matchQueue_conservation inc p q rem
    · simp [matchLedger, if_neg hg, sumAmounts]

theorem matchLedger_prices_suffix (inc : Order) (L : Ledger) (rem : Nat) :
    prices (matchLedger inc rem L).2.2 <:+ prices L := by
  induction L generalizing rem with
  | nil => simp [matchLedger]
  | cons lvl lvls ih =>
    obtain ⟨p, q⟩ := lvl
    by_cases hg : 0 < rem ∧ eligible inc p = true
    · by_cases he : (matchQueue inc p rem q).2.2 = []
      · simp only [matchLedger, if_pos hg, if_pos he]
        refine (ih _).trans ?_
        simp only [prices, List.map_cons]
        exact List.suffix_cons _ _
      · simp only [matchLedger, if_pos hg, if_neg he, prices, List.map_cons]
        exact List.suffix_refl _
    · simp only [matchLedger, if_neg hg]
      exact List.suffix_refl _

theorem matchLedger_pos (inc : Order) (L : Ledger) (rem : Nat) (hL : LedgerPosP L) :
    LedgerPosP (matchLedger inc rem L).2.2 := by
  induction L generalizing rem with
  | nil => simpa [matchLedger] using hL
  | cons lvl lvls ih =>
    obtain ⟨p, q⟩ := lvl
    have hq : ∀ o ∈ q, 0 < o.remaining_amount := (hL (p, q) (List.mem_cons_self _ _)).2
    have htl : LedgerPosP lvls := fun l hl => hL l (List.mem_cons_of_mem _ hl)
    by_cases hg : 0 < rem ∧ eligible inc p = true
    · by_cases he : (matchQueue inc p rem q).2.2 = []
      · simp only [matchLedger, if_pos hg, if_pos he]
        exact ih _ htl
      · simp only [matchLedger, if_pos hg, if_neg he]
        intro l hl
        rcases List.mem_cons.mp hl with h | h
        · subst h
          exact ⟨he, matchQueue_pos inc p q rem hq⟩
        · exact htl l h
    · simp only [matchLedger, if_neg hg]
      exact hL

theorem matchLedger_stop (inc : Order) (L : Ledger) (rem : Nat)
    (hrem : 0 < (matchLedger inc rem L).2.1) :
    ∀ p0 ∈ (prices (matchLedger inc rem L).2.2).head?, eligible inc p0 = false := by
  induction L generalizing rem with
  | nil => simp [matchLedger, prices]
  | cons lvl lvls ih =>
    obtain ⟨p, q⟩ := lvl
    by_cases hg : 0 < rem ∧ eligible inc p = true
    · by_cases he : (matchQueue inc p rem q).2.2 = []
      · simp only [matchLedger, if_pos hg, if_pos he] at hrem ⊢
        exact ih _ hrem
      · exfalso
        have := matchQueue_stop inc p q rem he
        simp only [matchLedger, if_pos hg, if_neg he] at hrem
        omega
    · simp only [matchLedger, if_neg hg] at hrem ⊢
      simp only [prices, List.map_cons, List.head?_cons, Option.mem_def, Option.some.injEq]
      intro p0 hp0
      subst hp0
      cases hb : eligible inc p
      · rfl
      · exact absurd ⟨hrem, hb⟩ hg

theorem sumAmounts_eq_sumN (ts : List Trade) :
    sumAmounts ts = sumN (ts.map (fun t => t.amount)) := by
  induction ts with
  | nil => rfl
  | cons t ts ih => simp [sumAmounts, sumN, ih]

theorem matchLedger_makers (inc : Order) (L : Ledger) (rem : Nat) :
    (matchLedger inc rem L).1.map (makerOrderId inc.side) =
      ((ledgerOrders L).take (matchLedger inc rem L).1.length).map (fun o => o.order_id) := by
  induction L generalizing rem with
  | nil => simp [matchLedger, ledgerOrders]
  | cons lvl lvls ih =>
    obtain ⟨p, q⟩ := lvl
    by_cases hg : 0 < rem ∧ eligible inc p = true
    · by_cases he : (matchQueue inc p rem q).2.2 = []
      · have hlen := matchQueue_all_consumed inc p q rem he
        have h1 := matchQueue_makers inc p q rem
        rw [hlen, List.take_length] at h1
        have h2 := ih (matchQueue inc p rem q).2.1
        simp only [matchLedger, if_pos hg, if_pos he, ledgerOrders, List.map_append,
          List.length_append, hlen]
        rw [take_append_left, List.map_append, h1, h2]
      · have hle := matchQueue_len_le inc p q rem
        simp only [matchLedger, if_pos hg, if_neg he, ledgerOrders]
        rw [take_append_le _ _ _ hle]
        exact matchQueue_makers inc p q rem
    · simp [matchLedger, if_neg hg]

theorem matchLedger_amounts (inc : Order) (L : Ledger) (rem : Nat) :
    (matchLedger inc rem L).1.map (fun t => t.amount) =
      (greedyAmounts rem (ledgerOrders L)).take (matchLedger inc rem L).1.length := by
  induction L generalizing rem with
  | nil => simp [matchLedger, ledgerOrders, greedyAmounts]
  | cons lvl lvls ih =>
    obtain ⟨p, q⟩ := lvl
    by_cases hg : 0 < rem ∧ eligible inc p = true
    · by_cases he : (matchQueue inc p rem q).2.2 = []
      · have hlen := matchQueue_all_consumed inc p q rem he
        have h1 := matchQueue_amounts inc p q rem
        rw [hlen] at h1
        rw [show q.length = (greedyAmounts rem q).length from (greedy_length rem q).symm,
          List.take_length] at h1
        have hcons := matchQueue_conservation inc p q rem
        have hsum : sumN (greedyAmounts rem q) = sumAmounts (matchQueue inc p rem q).1 := by
          rw [sumAmounts_eq_sumN, h1]
        have h2 := ih (matchQueue inc p rem q).2.1
        simp only [matchLedger, if_pos hg, if_pos he, ledgerOrders, List.map_append,
          List.length_append, hlen]
        rw [greedy_append, show rem - sumN (greedyAmounts rem q) = (matchQueue inc p rem q).2.1
          from by omega]
        rw [show q.length = (greedyAmounts rem q).length from (greedy_length rem q).symm,
          take_append_left, h1, h2]
      · have hle := matchQueue_len_le inc p q rem
        simp only [matchLedger, if_pos hg, if_neg he, ledgerOrders]
        rw [greedy_append, take_append_le]
        · exact matchQueue_amounts inc p q rem
        · rw [greedy_length]
          exact hle
    · simp [matchLedger, if_neg hg]

theorem matchLedger_remOf (inc : Order) (L : Ledger) (rem oid : Nat) :
    remOfL oid L =
      remOfL oid (matchLedger inc rem L).2.2 + fillsFor inc.side oid (matchLedger inc rem L).1 := by
  induction L generalizing rem with
  | nil => simp [matchLedger, remOfL, ledgerOrders, remOfQ, fillsFor]
  | cons lvl lvls ih =>
    obtain ⟨p, q⟩ := lvl
    by_cases hg : 0 < rem ∧ eligible inc p = true
    · by_cases he : (matchQueue inc p rem q).2.2 = []
      · have h1 := matchQueue_remOf inc p q rem oid
        rw [he] at h1
        simp only [remOfQ] at h1
        have h2 := ih (matchQueue inc p rem q).2.1
        simp only [matchLedger, if_pos hg, if_pos he, remOfL, ledgerOrders, remOfQ_append,
          fillsFor_append] at h2 ⊢
        omega
      · have h1 := matchQueue_remOf inc p q rem oid
        simp only [matchLedger, if_pos hg, if_neg he, remOfL, ledgerOrders, remOfQ_append]
        omega
    · simp [matchLedger, if_neg hg, fillsFor]

theorem matchLedger_pos_trades (inc : Order) (L : Ledger) (rem : Nat) (hL : LedgerPosP L) :
    ∀ t ∈ (matchLedger inc rem L).1, 0 < t.amount := by
  induction L generalizing rem with
  | nil => simp [matchLedger]
  | cons lvl lvls ih =>
    obtain ⟨p, q⟩ := lvl
    have hq : ∀ o ∈ q, 0 < o.remaining_amount := (hL (p, q) (List.mem_cons_self _ _)).2
    have htl : LedgerPosP lvls := fun l hl => hL l (List.mem_cons_of_mem _ hl)
    by_cases hg : 0 < rem ∧ eligible inc p = true
    · by_cases he : (matchQueue inc p rem q).2.2 = []
      · simp only [matchLedger, if_pos hg, if_pos he]
        intro t ht
        rcases List.mem_append.mp ht with h | h
        · exact matchQueue_pos_trades inc p q rem hq t h
        · exact ih _ htl t h
      · simp only [matchLedger, if_pos hg, if_neg he]
        exact matchQueue_pos_trades inc p q rem hq
    · simp [matchLedger, if_neg hg]

/-- The ledger's price keys are strictly ordered, best price first (the
Price Level Ledger invariant of spec §3: the best price is the first key). -/
def SortedP (better : Nat → Nat → Bool) (L : Ledger) : Prop :=
  List.Chain' (fun a b => better a b = true) (prices L)

theorem insertLedger_ne_nil (better : Nat → Nat → Bool) (p : Nat) (o : Order) (L : Ledger) :
    insertLedger better p o L ≠ [] := by
  cases L with
  | nil => simp [insertLedger]
  | cons lvl rest =>
    obtain ⟨q, l⟩ := lvl
    simp only [insertLedger]
    split
    · simp
    · split <;> simp

theorem insertLedger_head (better : Nat → Nat → Bool) (p : Nat) (o : Order) (L : Ledger) :
    ∀ x ∈ (prices (insertLedger better p o L)).head?, x = p ∨ x ∈ (prices L).head? := by
  cases L with
  | nil =>
    simp [insertLedger, prices]
  | cons lvl rest =>
    obtain ⟨q, l⟩ := lvl
    simp only [insertLedger]
    by_cases hpq : p = q
    · simp only [if_pos hpq, prices, List.map_cons, List.head?_cons]
      intro x hx
      exact Or.inr hx
    · simp only [if_neg hpq]
      by_cases hb : better p q = true
      · simp only [if_pos hb, prices, List.map_cons, List.head?_cons, Option.mem_def,
          Option.some.injEq]
        intro x hx
        exact Or.inl hx.symm
      · simp only [if_neg hb, prices, List.map_cons, List.head?_cons]
        intro x hx
        exact Or.inr hx

theorem insertLedger_sorted (better : Nat → Nat → Bool)
    (hconn : ∀ a b, a ≠ b → better a b = false → better b a = true)
    (p : Nat) (o : Order) (L : Ledger) (h : SortedP better L) :
    SortedP better (insertLedger better p o L) := by
  induction L with
  | nil => simp [insertLedger, SortedP, prices]
  | cons lvl rest ih =>
    obtain ⟨q, l⟩ := lvl
    simp only [insertLedger]
    by_cases hpq : p = q
    · simp only [if_pos hpq]
      simpa [SortedP, prices] using h
    · simp only [if_neg hpq]
      by_cases hb : better p q = true
      · simp only [if_pos hb]
        simp only [SortedP, prices, List.map_cons] at h ⊢
        exact List.chain'_cons.mpr ⟨hb, h⟩
      · simp only [if_neg hb]
        simp only [SortedP, prices, List.map_cons] at h ⊢
        have hrest : List.Chain' (fun a b => better a b = true) (prices rest) := by
          simpa [prices] using h.tail
        have hins := ih hrest
        refine List.chain'_cons'.mpr ⟨?_, by simpa [SortedP] using hins⟩
        intro y hy
        rcases insertLedger_head better p o rest y hy with heq | hmem
        · rw [heq]
          exact hconn p q hpq (by simpa using hb)
        · exact (List.chain'_cons'.mp h).1 y (by simpa [prices] using hmem)

theorem insertLedger_pos (better : Nat → Nat → Bool) (p : Nat) (o : Order) (L : Ledger)
    (hL : LedgerPosP L) (ho : 0 < o.remaining_amount) :
    LedgerPosP (insertLedger better p o L) := by
  induction L with
  | nil =>
    intro lvl hlvl
    simp only [insertLedger] at hlvl
    rcases List.mem_cons.mp hlvl with h | h
    · subst h
      refine ⟨by simp, ?_⟩
      intro x hx
      rcases List.mem_cons.mp hx with h | h
      · subst h
        exact ho
      · cases h
    · cases h
  | cons lvl0 rest ih =>
    obtain ⟨q, l⟩ := lvl0
    have hhd := hL (q, l) (List.mem_cons_self _ _)
    have htl : LedgerPosP rest := fun x hx => hL x (List.mem_cons_of_mem _ hx)
    simp only [insertLedger]
    by_cases hpq : p = q
    · simp only [if_pos hpq]
      intro lvl hlvl
      rcases List.mem_cons.mp hlvl with h | h
      · subst h
        constructor
        · simp
        · intro x hx
          rcases List.mem_append.mp hx with h | h
          · exact hhd.2 x h
          · rcases List.mem_cons.mp h with h | h
            · subst h; exact ho
            · cases h
      · exact htl lvl h
    · simp only [if_neg hpq]
      by_cases hb : better p q = true
      · simp only [if_pos hb]
        intro lvl hlvl
        rcases List.mem_cons.mp hlvl with h | h
        · subst h
          refine ⟨by simp, ?_⟩
          intro x hx
          rcases List.mem_cons.mp hx with h | h
          · subst h; exact ho
          · cases h
        · exact hL lvl h
      · simp only [if_neg hb]
        intro lvl hlvl
        rcases List.mem_cons.mp hlvl with h | h
        · subst h
          exact hhd
        · exact ih htl lvl h

theorem chain_append_head_rel (R : Nat → Nat → Prop)
    (htrans : ∀ a b c, R a b → R b c → R a c) (t l : List Nat) :
    List.Chain' R (t ++ l) → ∀ a ∈ l.head?, ∃ b ∈ (t ++ l).head?, b = a ∨ R b a := by
  induction t with
  | nil =>
    intro hc a ha
    exact ⟨a, ha, Or.inl rfl⟩
  | cons x xs ih =>
    intro hc a ha
    obtain ⟨b, hb, hba⟩ := ih hc.tail a ha
    refine ⟨x, by simp, ?_⟩
    have hxb : R x b := (List.chain'_cons'.mp hc).1 b hb
    rcases hba with rfl | h
    · exact Or.inr hxb
    · exact Or.inr (htrans x b a hxb h)

theorem suffix_head_rel (R : Nat → Nat → Prop)
    (htrans : ∀ a b c, R a b → R b c → R a c)
    (l l' : List Nat) (hs : l' <:+ l) (hc : List.Chain' R l) :
    ∀ a ∈ l'.head?, ∃ b ∈ l.head?, b = a ∨ R b a := by
  obtain ⟨t, rfl⟩ := hs
  exact chain_append_head_rel R htrans t l' hc

/-- Modelled from the spec: the Order Book invariant (§3): at any
observable instant the best bid price is strictly below the best ask
price, or one side is empty (no crossed book). -/
def NotCrossed (b : OrderBook) : Prop :=
  ∀ pb ∈ (prices b.bids).head?, ∀ pa ∈ (prices b.asks).head?, pb < pa

/-- The well-formedness invariant of an order book: both ledgers sorted
best price first, all resting orders partially unfilled on nonempty
levels, and the book not crossed. -/
def BookWF (b : OrderBook) : Prop :=
  SortedP bidBetter b.bids ∧ SortedP askBetter b.asks ∧
    LedgerPosP b.bids ∧ LedgerPosP b.asks ∧ NotCrossed b

theorem eligible_false_buy (o : Order) (lp pa : Nat) (hside : o.side = Side.buy)
    (htype : o.order_type = OrderType.limit) (hprice : o.price = some lp)
    (hel : eligible o pa = false) : lp < pa := by
  simp only [eligible, htype, hprice, hside] at hel
  simp at hel
  omega

theorem eligible_false_sell (o : Order) (lp pb : Nat) (hside : o.side = Side.sell)
    (htype : o.order_type = OrderType.limit) (hprice : o.price = some lp)
    (hel : eligible o pb = false) : pb < lp := by
  simp only [eligible, htype, hprice, hside] at hel
  simp at hel
  omega

theorem notCrossed_shrink_asks (bids asks asks' : Ledger)
    (hsuffix : prices asks' <:+ prices asks)
    (hsorted : List.Chain' (fun a b : Nat => askBetter a b = true) (prices asks))
    (hnc : ∀ pb ∈ (prices bids).head?, ∀ pa ∈ (prices asks).head?, pb < pa) :
    ∀ pb ∈ (prices bids).head?, ∀ pa ∈ (prices asks').head?, pb < pa := by
  intro pb hpb pa hpa
  have hch : List.Chain' (fun a b : Nat => a < b) (prices asks) :=
    hsorted.imp (fun a b h => by simp only [askBetter, decide_eq_true_eq] at h; exact h)
  obtain ⟨pa0, hpa0, hrel⟩ :=
    suffix_head_rel (fun a b => a < b) (fun a b c hab hbc => Nat.lt_trans hab hbc)
      _ _ hsuffix hch pa hpa
  have := hnc pb hpb pa0 hpa0
  rcases hrel with rfl | h
  · exact this
  · omega

theorem notCrossed_shrink_bids (bids bids' asks : Ledger)
    (hsuffix : prices bids' <:+ prices bids)
    (hsorted : List.Chain' (fun a b : Nat => bidBetter a b = true) (prices bids))
    (hnc : ∀ pb ∈ (prices bids).head?, ∀ pa ∈ (prices asks).head?, pb < pa) :
    ∀ pb ∈ (prices bids').head?, ∀ pa ∈ (prices asks).head?, pb < pa := by
  intro pb hpb pa hpa
  have hch : List.Chain' (fun a b : Nat => b < a) (prices bids) :=
    hsorted.imp (fun a b h => by simp only [bidBetter, decide_eq_true_eq] at h; exact h)
  obtain ⟨pb0, hpb0, hrel⟩ :=
    suffix_head_rel (fun a b => b < a) (fun a b c hab hbc => Nat.lt_trans hbc hab)
      _ _ hsuffix hch pb hpb
  have := hnc pb0 hpb0 pa hpa
  rcases hrel with rfl | h
  · exact this
  · omega

theorem bidBetter_conn (a b : Nat) (h1 : a ≠ b) (h2 : bidBetter a b = false) :
    bidBetter b a = true := by
  simp only [bidBetter] at h2 ⊢
  simp at h2 ⊢
  omega

theorem askBetter_conn (a b : Nat) (h1 : a ≠ b) (h2 : askBetter a b = false) :
    askBetter b a = true := by
  simp only [askBetter] at h2 ⊢
  simp at h2 ⊢
  omega

theorem BookWF_submit_ok (b : OrderBook) (o : Order) (ts : List Trade) (ro : Option Order)
    (b' : OrderBook) (hok : b.submit o = Except.ok (ts, ro, b')) (hwf : BookWF b) :
    BookWF b' := by
  obtain ⟨hbs, has, hbp, hap, hnc⟩ := hwf
  unfold OrderBook.submit at hok
  by_cases h1 : o.pair ≠ b.pair
  · rw [if_pos h1] at hok
    exact Except.noConfusion hok
  rw [if_neg h1] at hok
  by_cases h2 : o.amount = 0
  · rw [if_pos h2] at hok
    exact Except.noConfusion hok
  rw [if_neg h2] at hok
  by_cases h3 : o.order_type = OrderType.limit ∧ o.price.getD 0 = 0
  · rw [if_pos h3] at hok
    exact Except.noConfusion hok
  rw [if_neg h3] at hok
  simp only [Except.ok.injEq, Prod.mk.injEq] at hok
  obtain ⟨hts, hro, hb'⟩ := hok
  by_cases hrest : o.order_type = OrderType.limit ∧
      0 < (matchLedger o o.amount (oppLedger b o.side)).2.1
  · -- a limit remainder rests on the own side
    rw [if_pos hrest] at hro hb'
    obtain ⟨lp, hlp⟩ : ∃ lp, o.price = some lp := by
      cases hp : o.price with
      | none =>
        exfalso
        exact h3 ⟨hrest.1, by simp [hp]⟩
      | some lp => exact ⟨lp, rfl⟩
    have hlp' : o.price.getD 0 = lp := by simp [hlp]
    have hstop := matchLedger_stop o (oppLedger b o.side) o.amount hrest.2
    cases hs : o.side with
    | buy =>
      rw [hs] at hb' hstop hrest
      simp only [oppLedger, ownLedger, setLedgers, betterFor] at hb' hstop hrest ⊢
      subst hb'
      have hsuffix := matchLedger_prices_suffix o b.asks o.amount
      refine ⟨?_, ?_, ?_, ?_, ?_⟩
      · exact insertLedger_sorted bidBetter bidBetter_conn _ _ _ hbs
      · exact has.suffix hsuffix
      · exact insertLedger_pos bidBetter _ _ _ hbp hrest.2
      · exact matchLedger_pos o b.asks o.amount hap
      · intro pb hpb pa hpa
        simp only [] at hpb hpa
        rcases insertLedger_head bidBetter (o.price.getD 0) _ b.bids pb hpb with heq | hmem
        · rw [heq, hlp']
          have hel := hstop pa hpa
          exact eligible_false_buy o lp pa hs hrest.1 hlp hel
        · exact notCrossed_shrink_asks b.bids b.asks _ hsuffix has hnc pb hmem pa hpa
    | sell =>
      rw [hs] at hb' hstop hrest
      simp only [oppLedger, ownLedger, setLedgers, betterFor] at hb' hstop hrest ⊢
      subst hb'
      have hsuffix := matchLedger_prices_suffix o b.bids o.amount
      refine ⟨?_, ?_, ?_, ?_, ?_⟩
      · exact hbs.suffix hsuffix
      · exact insertLedger_sorted askBetter askBetter_conn _ _ _ has
      · exact matchLedger_pos o b.bids o.amount hbp
      · exact insertLedger_pos askBetter _ _ _ hap hrest.2
      · intro pb hpb pa hpa
        simp only [] at hpb hpa
        rcases insertLedger_head askBetter (o.price.getD 0) _ b.asks pa hpa with heq | hmem
        · rw [heq, hlp']
          have hel := hstop pb hpb
          exact eligible_false_sell o lp pb hs hrest.1 hlp hel
        · exact notCrossed_shrink_bids b.bids _ b.asks hsuffix hbs hnc pb hpb pa hmem
  · -- no remainder rests: the own side is untouched
    rw [if_neg hrest] at hro hb'
    cases hs : o.side with
    | buy =>
      rw [hs] at hb'
      simp only [oppLedger, ownLedger, setLedgers] at hb' ⊢
      subst hb'
      have hsuffix := matchLedger_prices_suffix o b.asks o.amount
      exact ⟨hbs, has.suffix hsuffix, hbp, matchLedger_pos o b.asks o.amount hap,
        notCrossed_shrink_asks b.bids b.asks _ (by simpa using hsuffix) has hnc⟩
    | sell =>
      rw [hs] at hb'
      simp only [oppLedger, ownLedger, setLedgers] at hb' ⊢
      subst hb'
      have hsuffix := matchLedger_prices_suffix o b.bids o.amount
      exact ⟨hbs.suffix hsuffix, has, matchLedger_pos o b.bids o.amount hbp, hap,
        notCrossed_shrink_bids b.bids _ b.asks (by simpa using hsuffix) hbs hnc⟩

/-- The book state after a submission: the mutated book on success, the
unchanged book when the order was rejected. -/
def applySubmit (b : OrderBook) (o : Order) : OrderBook :=
  match b.submit o with
  | Except.ok r => r.2.2
  | Except.error _ => b

/-- The book state after a whole sequence of submissions, starting from
book `b`. -/
def submitAll (b : OrderBook) (os : List Order) : OrderBook :=
  os.foldl applySubmit b

theorem BookWF_empty (pair : String) : BookWF (OrderBook.empty pair) := by
  refine ⟨?_, ?_, ?_, ?_, ?_⟩ <;>
    simp [OrderBook.empty, SortedP, prices, LedgerPosP, NotCrossed]

theorem BookWF_applySubmit (b : OrderBook) (o : Order) (h : BookWF b) :
    BookWF (applySubmit b o) := by
  unfold applySubmit
  cases hsub : b.submit o with
  | ok r => exact BookWF_submit_ok b o r.1 r.2.1 r.2.2 (by rw [hsub]) h
  | error e => exact h

theorem BookWF_submitAll (b : OrderBook) (os : List Order) (h : BookWF b) :
    BookWF (submitAll b os) := by
  induction os generalizing b with
  | nil => exact h
  | cons o os ih => exact ih (applySubmit b o) (BookWF_applySubmit b o h)

/-- C1: for every sequence of orders submitted to one pair's Order Book
(starting from the freshly created book; a rejected submission leaves the
book unchanged), after each submit returns the book is not crossed: the
best bid price is strictly below the best ask price or one side is empty.
Since every intermediate state is itself `submitAll` of a prefix, the
statement covers the state after each individual submit. -/
theorem no_crossed_book_after_submits (pair : String) (os : List Order) :
    NotCrossed (submitAll (OrderBook.empty pair) os) :=
  (BookWF_submitAll (OrderBook.empty pair) os (BookWF_empty pair)).2.2.2.2

theorem oppLedger_setLedgers (b : OrderBook) (s : Side) (opp own : Ledger) (n : Nat) :
    oppLedger (setLedgers b s opp own n) s = opp := by
  cases s <;> rfl

theorem ownLedger_setLedgers (b : OrderBook) (s : Side) (opp own : Ledger) (n : Nat) :
    ownLedger (setLedgers b s opp own n) s = own := by
  cases s <;> rfl

theorem submit_ok_parts (b : OrderBook) (o : Order) (ts : List Trade) (ro : Option Order)
    (b' : OrderBook) (hok : b.submit o = Except.ok (ts, ro, b')) :
    ts = assignIds b.next_trade_id (matchLedger o o.amount (oppLedger b o.side)).1 ∧
    ro = (if o.order_type = OrderType.limit ∧
            0 < (matchLedger o o.amount (oppLedger b o.side)).2.1
          then some { o with
            remaining_amount := (matchLedger o o.amount (oppLedger b o.side)).2.1 }
          else none) ∧
    oppLedger b' o.side = (matchLedger o o.amount (oppLedger b o.side)).2.2 ∧
    o.pair = b.pair ∧ o.amount ≠ 0 := by
  unfold OrderBook.submit at hok
  by_cases h1 : o.pair ≠ b.pair
  · rw [if_pos h1] at hok
    exact Except.noConfusion hok
  rw [if_neg h1] at hok
  by_cases h2 : o.amount = 0
  · rw [if_pos h2] at hok
    exact Except.noConfusion hok
  rw [if_neg h2] at hok
  by_cases h3 : o.order_type = OrderType.limit ∧ o.price.getD 0 = 0
  · rw [if_pos h3] at hok
    exact Except.noConfusion hok
  rw [if_neg h3] at hok
  simp only [Except.ok.injEq, Prod.mk.injEq] at hok
  obtain ⟨hts, hro, hb'⟩ := hok
  refine ⟨hts.symm, hro.symm, ?_, not_not.mp h1, h2⟩
  rw [← hb', oppLedger_setLedgers]

theorem assignIds_length (base : Nat) (ts : List Trade) :
    (assignIds base ts).length = ts.length := by
  induction ts generalizing base with
  | nil => rfl
  | cons t ts ih => simp [assignIds, ih]

theorem assignIds_maker (s : Side) (base : Nat) (ts : List Trade) :
    (assignIds base ts).map (makerOrderId s) = ts.map (makerOrderId s) := by
  induction ts generalizing base with
  | nil => rfl
  | cons t ts ih =>
    simp only [assignIds, List.map_cons, ih]
    cases s <;> rfl

theorem assignIds_amounts (base : Nat) (ts : List Trade) :
    (assignIds base ts).map (fun t => t.amount) = ts.map (fun t => t.amount) := by
  induction ts generalizing base with
  | nil => rfl
  | cons t ts ih => simp [assignIds, ih]

theorem assignIds_sumAmounts (base : Nat) (ts : List Trade) :
    sumAmounts (assignIds base ts) = sumAmounts ts := by
  induction ts generalizing base with
  | nil => rfl
  | cons t ts ih => simp [assignIds, sumAmounts, ih]

theorem assignIds_fillsFor (s : Side) (oid base : Nat) (ts : List Trade) :
    fillsFor s oid (assignIds base ts) = fillsFor s oid ts := by
  induction ts generalizing base with
  | nil => rfl
  | cons t ts ih =>
    simp only [assignIds, fillsFor, ih]
    cases s <;> rfl

theorem assignIds_amount_mem (base : Nat) (ts : List Trade)
    (h : ∀ t ∈ ts, 0 < t.amount) : ∀ t ∈ assignIds base ts, 0 < t.amount := by
  induction ts generalizing base with
  | nil => simp [assignIds]
  | cons t ts ih =>
    intro u hu
    rcases List.mem_cons.mp hu with hh | hh
    · subst hh
      exact h t (List.mem_cons_self _ _)
    · exact ih (base + 1) (fun v hv => h v (List.mem_cons_of_mem _ hv)) u hh

/-- The side whose resting orders populate the ledger opposing an
incoming order of the given side. -/
def flipSide : Side → Side
  | Side.buy => Side.sell
  | Side.sell => Side.buy

/-- Every queue of the ledger is ordered by nondecreasing submitted_at:
arrival order (the queue order, which drives matching) coincides with the
tie-breaking timestamp order. -/
def TimeSortedP (L : Ledger) : Prop :=
  ∀ lvl ∈ L, List.Chain' (fun a b : Order => a.submitted_at ≤ b.submitted_at) lvl.2

/-- Every resting order carries the price of the level it rests at. -/
def PriceKeyedP (L : Ledger) : Prop :=
  ∀ lvl ∈ L, ∀ o ∈ lvl.2, o.price = some lvl.1

/-- Price-time priority between two resting orders: strictly better
price, or same price and submitted no later. -/
def priorOrd (better : Nat → Nat → Bool) (a b : Order) : Prop :=
  better (a.price.getD 0) (b.price.getD 0) = true ∨
    (a.price = b.price ∧ a.submitted_at ≤ b.submitted_at)

theorem chain_time_to_prior (better : Nat → Nat → Bool) (p : Nat) (q : List Order)
    (hk : ∀ o ∈ q, o.price = some p)
    (ht : List.Chain' (fun a b : Order => a.submitted_at ≤ b.submitted_at) q) :
    List.Chain' (priorOrd better) q := by
  induction q with
  | nil => simp
  | cons a q ih =>
    rw [List.chain'_cons'] at ht ⊢
    refine ⟨?_, ih (fun o ho => hk o (List.mem_cons_of_mem _ ho)) ht.2⟩
    intro y hy
    right
    refine ⟨?_, ht.1 y hy⟩
    rw [hk a (List.mem_cons_self _ _), hk y (List.mem_cons_of_mem _ (List.mem_of_mem_head? hy))]

theorem ledgerOrders_head_price (L : Ledger) (hp : LedgerPosP L) (hk : PriceKeyedP L) :
    ∀ y ∈ (ledgerOrders L).head?, ∃ p0 ∈ (prices L).head?, y.price = some p0 := by
  cases L with
  | nil => simp [ledgerOrders]
  | cons lvl lvls =>
    obtain ⟨p, q⟩ := lvl
    cases hq : q with
    | nil => exact absurd hq (hp (p, q) (List.mem_cons_self _ _)).1
    | cons a q2 =>
      intro y hy
      simp only [ledgerOrders, hq, List.cons_append, List.head?_cons, Option.mem_def,
        Option.some.injEq] at hy
      refine ⟨p, by simp [prices], ?_⟩
      rw [← hy]
      exact hk (p, q) (List.mem_cons_self _ _) a (by rw [hq]; exact List.mem_cons_self _ _)

theorem ledgerOrders_priority_sorted (better : Nat → Nat → Bool) (L : Ledger)
    (hs : SortedP better L) (ht : TimeSortedP L) (hk : PriceKeyedP L) (hp : LedgerPosP L) :
    List.Chain' (priorOrd better) (ledgerOrders L) := by
  induction L with
  | nil => simp [ledgerOrders]
  | cons lvl lvls ih =>
    obtain ⟨p, q⟩ := lvl
    have hkq : ∀ o ∈ q, o.price = some p := hk (p, q) (List.mem_cons_self _ _)
    have htq := ht (p, q) (List.mem_cons_self _ _)
    have hstl : SortedP better lvls := by
      simpa [SortedP, prices] using (show List.Chain' _ (p :: prices lvls) from by
        simpa [SortedP, prices] using hs).tail
    have httl : TimeSortedP lvls := fun l hl => ht l (List.mem_cons_of_mem _ hl)
    have hktl : PriceKeyedP lvls := fun l hl => hk l (List.mem_cons_of_mem _ hl)
    have hptl : LedgerPosP lvls := fun l hl => hp l (List.mem_cons_of_mem _ hl)
    show List.Chain' (priorOrd better) (q ++ ledgerOrders lvls)
    rw [List.chain'_append]
    refine ⟨chain_time_to_prior better p q hkq htq, ih hstl httl hktl hptl, ?_⟩
    intro x hx y hy
    obtain ⟨p0, hp0, hyp0⟩ := ledgerOrders_head_price lvls hptl hktl y hy
    left
    have hxp : x.price = some p := hkq x (List.mem_of_mem_getLast? hx)
    rw [hxp, hyp0]
    simp only [Option.getD_some]
    have hchain : List.Chain' (fun a b => better a b = true) (p :: prices lvls) := by
      simpa [SortedP, prices] using hs
    exact (List.chain'_cons'.mp hchain).1 p0 hp0

/-- C2: price-time priority.  Whenever `submit` succeeds on a well-formed
book, the sequence of makers matched against is exactly an initial
segment of the opposing ledger read in book order, and that book order is
sorted by strict price priority then submission-time priority — so of two
resting orders at one price the earlier-submitted is matched first, and
of two prices the better is matched first, regardless of arrival order. -/
theorem price_time_priority (b : OrderBook) (o : Order) (ts : List Trade) (ro : Option Order)
    (b' : OrderBook) (hok : b.submit o = Except.ok (ts, ro, b'))
    (hs : SortedP (betterFor (flipSide o.side)) (oppLedger b o.side))
    (ht : TimeSortedP (oppLedger b o.side))
    (hk : PriceKeyedP (oppLedger b o.side))
    (hp : LedgerPosP (oppLedger b o.side)) :
    ts.map (makerOrderId o.side) =
      (((ledgerOrders (oppLedger b o.side)).map (fun r => r.order_id)).take ts.length) ∧
    List.Chain' (priorOrd (betterFor (flipSide o.side))) (ledgerOrders (oppLedger b o.side)) := by
  obtain ⟨hts, _, _, _, _⟩ := submit_ok_parts b o ts ro b' hok
  constructor
  · rw [hts, assignIds_maker, assignIds_length, matchLedger_makers, List.map_take]
  · exact ledgerOrders_priority_sorted _ _ hs ht hk hp

instance instDecLedgerPosP (L : Ledger) : Decidable (LedgerPosP L) :=
  inferInstanceAs (Decidable (∀ lvl ∈ L, lvl.2 ≠ [] ∧ ∀ o ∈ lvl.2, 0 < o.remaining_amount))

/-- Executable check that adjacent elements of a list are related by R. -/
def chainB {α : Type} (R : α → α → Bool) : List α → Bool
  | [] => true
  | [_] => true
  | a :: b :: rest => R a b && chainB R (b :: rest)

theorem chainB_iff {α : Type} (R : α → α → Bool) (l : List α) :
    chainB R l = true ↔ List.Chain' (fun a b => R a b = true) l := by
  induction l with
  | nil => simp [chainB]
  | cons a l ih =>
    cases l with
    | nil => simp [chainB]
    | cons b l2 =>
      rw [List.chain'_cons, ← ih]
      simp [chainB, Bool.and_eq_true]

theorem chain_iff_of_iff {α : Type} {R S : α → α → Prop} (h : ∀ a b, R a b ↔ S a b)
    (l : List α) : List.Chain' R l ↔ List.Chain' S l :=
  ⟨fun hc => hc.imp (fun a b => (h a b).mp), fun hc => hc.imp (fun a b => (h a b).mpr)⟩

instance instDecSortedP (better : Nat → Nat → Bool) (L : Ledger) :
    Decidable (SortedP better L) :=
  decidable_of_iff (chainB better (prices L) = true) (chainB_iff better (prices L))

instance instDecChainTime (q : List Order) :
    Decidable (List.Chain' (fun a b : Order => a.submitted_at ≤ b.submitted_at) q) :=
  decidable_of_iff (chainB (fun a b => decide (a.submitted_at ≤ b.submitted_at)) q = true)
    ((chainB_iff _ q).trans (chain_iff_of_iff (fun a b => by simp) q))

instance instDecTimeSortedP (L : Ledger) : Decidable (TimeSortedP L) :=
  inferInstanceAs (Decidable
    (∀ lvl ∈ L, List.Chain' (fun a b : Order => a.submitted_at ≤ b.submitted_at) lvl.2))

instance instDecPriceKeyedP (L : Ledger) : Decidable (PriceKeyedP L) :=
  inferInstanceAs (Decidable (∀ lvl ∈ L, ∀ o ∈ lvl.2, o.price = some lvl.1))

/-- A resting sell at price 100, first in time. -/
def c2Rest1 : Order :=
  { order_id := 1, pair := "BTC-USD", side := Side.sell, order_type := OrderType.limit,
    price := some 100, amount := 2, submitted_at := 1, remaining_amount := 2, user_id := "a" }

/-- A resting sell at price 100, second in time. -/
def c2Rest2 : Order :=
  { order_id := 2, pair := "BTC-USD", side := Side.sell, order_type := OrderType.limit,
    price := some 100, amount := 1, submitted_at := 2, remaining_amount := 1, user_id := "b" }

/-- A resting sell at the worse price 101. -/
def c2Rest3 : Order :=
  { order_id := 3, pair := "BTC-USD", side := Side.sell, order_type := OrderType.limit,
    price := some 101, amount := 1, submitted_at := 3, remaining_amount := 1, user_id := "c" }

/-- A book with two ask levels and three resting sells. -/
def c2Book : OrderBook :=
  { pair := "BTC-USD", bids := [], asks := [(100, [c2Rest1, c2Rest2]), (101, [c2Rest3])],
    next_trade_id := 0 }

/-- An incoming limit buy crossing both ask levels. -/
def c2Inc : Order :=
  { order_id := 9, pair := "BTC-USD", side := Side.buy, order_type := OrderType.limit,
    price := some 101, amount := 4, submitted_at := 4, remaining_amount := 4, user_id := "t" }

/-- The result of submitting the incoming order of the C2 witness. -/
def c2Res : List Trade × Option Order × OrderBook :=
  ((c2Book.submit c2Inc).toOption).getD ([], none, c2Book)

theorem price_time_priority_witness :
    c2Book.submit c2Inc = Except.ok (c2Res.1, c2Res.2.1, c2Res.2.2) ∧
    SortedP (betterFor (flipSide c2Inc.side)) (oppLedger c2Book c2Inc.side) ∧
    TimeSortedP (oppLedger c2Book c2Inc.side) ∧
    PriceKeyedP (oppLedger c2Book c2Inc.side) ∧
    LedgerPosP (oppLedger c2Book c2Inc.side) ∧
    (c2Res.1.map (makerOrderId c2Inc.side) =
      (((ledgerOrders (oppLedger c2Book c2Inc.side)).map (fun r => r.order_id)).take
        c2Res.1.length) ∧
    List.Chain' (priorOrd (betterFor (flipSide c2Inc.side)))
      (ledgerOrders (oppLedger c2Book c2Inc.side))) :=
  ⟨by rfl, by decide, by decide, by decide, by decide,
    price_time_priority c2Book c2Inc c2Res.1 c2Res.2.1 c2Res.2.2 (by rfl)
      (by decide) (by decide) (by decide) (by decide)⟩

/-- C3: conservation of quantity.  When `submit` succeeds on a book whose
opposing side satisfies the ledger invariant: the incoming amount splits
exactly into the traded total plus the loop's final remainder; when a
remainder rests, its remaining_amount plus the traded total reproduces
the original amount; for every order id, the quantity resting on the
opposing side before matching equals the quantity still resting after
matching plus the trade amounts naming it as maker; each trade amount is
the greedy min of the incoming remainder and the resting remainder at its
step; and every trade amount is positive and at most both participants'
pre-match remainders. -/
theorem matching_conserves_quantity (b : OrderBook) (o : Order) (ts : List Trade)
    (ro : Option Order) (b' : OrderBook) (hok : b.submit o = Except.ok (ts, ro, b'))
    (hp : LedgerPosP (oppLedger b o.side)) :
    o.amount = sumAmounts ts + (matchLedger o o.amount (oppLedger b o.side)).2.1 ∧
    (∀ r ∈ ro, sumAmounts ts + r.remaining_amount = o.amount) ∧
    (∀ oid, remOfL oid (oppLedger b o.side) =
      remOfL oid (oppLedger b' o.side) + fillsFor o.side oid ts) ∧
    ts.map (fun t => t.amount) =
      (greedyAmounts o.amount (ledgerOrders (oppLedger b o.side))).take ts.length ∧
    (∀ t ∈ ts, 0 < t.amount ∧ t.amount ≤ o.amount ∧
      t.amount ≤ remOfL (makerOrderId o.side t) (oppLedger b o.side)) := by
  obtain ⟨hts, hro, hopp, _, _⟩ := submit_ok_parts b o ts ro b' hok
  have hcons := matchLedger_conservation o (oppLedger b o.side) o.amount
  have hsum : sumAmounts ts = sumAmounts (matchLedger o o.amount (oppLedger b o.side)).1 := by
    rw [hts, assignIds_sumAmounts]
  have hconsTs : o.amount = sumAmounts ts + (matchLedger o o.amount (oppLedger b o.side)).2.1 := by
    omega
  have hremAll : ∀ oid, remOfL oid (oppLedger b o.side) =
      remOfL oid (oppLedger b' o.side) + fillsFor o.side oid ts := by
    intro oid
    rw [hopp, hts, assignIds_fillsFor]
    exact matchLedger_remOf o (oppLedger b o.side) o.amount oid
  refine ⟨hconsTs, ?_, hremAll, ?_, ?_⟩
  · intro r hr
    rw [hro] at hr
    by_cases hcond : o.order_type = OrderType.limit ∧
        0 < (matchLedger o o.amount (oppLedger b o.side)).2.1
    · rw [if_pos hcond] at hr
      simp only [Option.mem_def, Option.some.injEq] at hr
      rw [← hr]
      simp only []
      omega
    · rw [if_neg hcond] at hr
      cases hr
  · rw [hts, assignIds_amounts, assignIds_length, matchLedger_amounts]
  · intro t htmem
    have hmem0 : ∀ t ∈ ts, 0 < t.amount := by
      rw [hts]
      exact assignIds_amount_mem _ _ (matchLedger_pos_trades o (oppLedger b o.side) o.amount hp)
    have hle1 : t.amount ≤ o.amount := by
      have hmap : t.amount ∈ ts.map (fun t => t.amount) := List.mem_map_of_mem _ htmem
      rw [hts, assignIds_amounts, matchLedger_amounts] at hmap
      exact greedy_mem_le _ _ _ (List.mem_of_mem_take hmap)
    have hle2 : t.amount ≤ remOfL (makerOrderId o.side t) (oppLedger b o.side) := by
      have h1 := fillsFor_member_le o.side ts t htmem
      have h2 := hremAll (makerOrderId o.side t)
      omega
    exact ⟨hmem0 t htmem, hle1, hle2⟩

/-- A resting sell used by the C3 witness. -/
def c3Rest : Order :=
  { order_id := 4, pair := "BTC-USD", side := Side.sell, order_type := OrderType.limit,
    price := some 100, amount := 5, submitted_at := 1, remaining_amount := 5, user_id := "m" }

/-- The book of the C3 witness: one ask level. -/
def c3Book : OrderBook :=
  { pair := "BTC-USD", bids := [], asks := [(100, [c3Rest])], next_trade_id := 0 }

/-- The incoming limit buy of the C3 witness: partially fills the ask. -/
def c3Inc : Order :=
  { order_id := 8, pair := "BTC-USD", side := Side.buy, order_type := OrderType.limit,
    price := some 101, amount := 2, submitted_at := 2, remaining_amount := 2, user_id := "n" }

/-- The result of submitting the order of the C3 witness. -/
def c3Res : List Trade × Option Order × OrderBook :=
  ((c3Book.submit c3Inc).toOption).getD ([], none, c3Book)

theorem matching_conserves_quantity_witness :
    c3Book.submit c3Inc = Except.ok (c3Res.1, c3Res.2.1, c3Res.2.2) ∧
    LedgerPosP (oppLedger c3Book c3Inc.side) ∧
    (c3Inc.amount =
      sumAmounts c3Res.1 + (matchLedger c3Inc c3Inc.amount (oppLedger c3Book c3Inc.side)).2.1 ∧
    (∀ r ∈ c3Res.2.1, sumAmounts c3Res.1 + r.remaining_amount = c3Inc.amount) ∧
    (∀ oid, remOfL oid (oppLedger c3Book c3Inc.side) =
      remOfL oid (oppLedger c3Res.2.2 c3Inc.side) + fillsFor c3Inc.side oid c3Res.1) ∧
    c3Res.1.map (fun t => t.amount) =
      (greedyAmounts c3Inc.amount (ledgerOrders (oppLedger c3Book c3Inc.side))).take
        c3Res.1.length ∧
    (∀ t ∈ c3Res.1, 0 < t.amount ∧ t.amount ≤ c3Inc.amount ∧
      t.amount ≤ remOfL (makerOrderId c3Inc.side t) (oppLedger c3Book c3Inc.side))) :=
  ⟨by rfl, by decide,
    matching_conserves_quantity c3Book c3Inc c3Res.1 c3Res.2.1 c3Res.2.2 (by rfl) (by decide)⟩

theorem submit_market_eq (b : OrderBook) (o : Order)
    (hm : o.order_type = OrderType.market) (hpair : o.pair = b.pair) (ha : o.amount ≠ 0) :
    b.submit o = Except.ok
      (assignIds b.next_trade_id (matchLedger o o.amount (oppLedger b o.side)).1, none,
        setLedgers b o.side (matchLedger o o.amount (oppLedger b o.side)).2.2 (ownLedger b o.side)
          (b.next_trade_id +
            (assignIds b.next_trade_id (matchLedger o o.amount (oppLedger b o.side)).1).length)) := by
  unfold OrderBook.submit
  rw [if_neg (show ¬o.pair ≠ b.pair from by simp [hpair]), if_neg ha,
    if_neg (show ¬(o.order_type = OrderType.limit ∧ o.price.getD 0 = 0) from by simp [hm])]
  simp only [hm]
  rfl

/-- C9: a market order's residual is discarded and never rests: whenever
a market order passes validation, submit succeeds with `resting = none`
and the order's own side of the book unchanged; against an empty opposing
ledger it returns `fills = []`, `resting = none` (not an error) and the
opposing side stays empty. -/
theorem market_residual_never_rests (b : OrderBook) (o : Order)
    (hm : o.order_type = OrderType.market) (hpair : o.pair = b.pair) (ha : o.amount ≠ 0) :
    ∃ ts b', b.submit o = Except.ok (ts, none, b') ∧
      ownLedger b' o.side = ownLedger b o.side ∧
      (oppLedger b o.side = [] → ts = [] ∧ oppLedger b' o.side = []) := by
  refine ⟨_, _, submit_market_eq b o hm hpair ha, ownLedger_setLedgers _ _ _ _ _, ?_⟩
  intro hemp
  rw [oppLedger_setLedgers, hemp]
  exact ⟨rfl, rfl⟩

/-- The market order of the C9 witness. -/
def c9Order : Order :=
  { order_id := 11, pair := "BTC-USD", side := Side.sell, order_type := OrderType.market,
    price := none, amount := 5, submitted_at := 1, remaining_amount := 5, user_id := "w" }

theorem market_residual_never_rests_witness :
    c9Order.order_type = OrderType.market ∧ c9Order.pair = (OrderBook.empty "BTC-USD").pair ∧
    c9Order.amount ≠ 0 ∧
    (∃ ts b', (OrderBook.empty "BTC-USD").submit c9Order = Except.ok (ts, none, b') ∧
      ownLedger b' c9Order.side = ownLedger (OrderBook.empty "BTC-USD") c9Order.side ∧
      (oppLedger (OrderBook.empty "BTC-USD") c9Order.side = [] →
        ts = [] ∧ oppLedger b' c9Order.side = [])) :=
  ⟨by decide, by decide, by decide,
    market_residual_never_rests (OrderBook.empty "BTC-USD") c9Order
      (by decide) (by decide) (by decide)⟩

/-- C4: an order violating a precondition — wrong pair, non-positive
(zero) amount, or a limit order without a (positive) price — is rejected
by the engine with a ValidationError, before any mutation: no book is
produced, and the api-level registry is returned unchanged. -/
theorem validation_rejects_before_mutation (books : Registry) (b : OrderBook) (o : Order)
    (hb : Registry.lookup books o.pair = some b)
    (hv : o.pair ≠ b.pair ∨ o.amount = 0 ∨
      (o.order_type = OrderType.limit ∧ o.price.getD 0 = 0)) :
    (∃ msg, b.submit o = Except.error (EngineError.validation msg)) ∧
    (place_order books o).2 = books := by
  have herr : ∃ msg, b.submit o = Except.error (EngineError.validation msg) := by
    by_cases h1 : o.pair ≠ b.pair
    · exact ⟨_, by unfold OrderBook.submit; rw [if_pos h1]⟩
    by_cases h2 : o.amount = 0
    · exact ⟨_, by unfold OrderBook.submit; rw [if_neg h1, if_pos h2]⟩
    have h3 : o.order_type = OrderType.limit ∧ o.price.getD 0 = 0 := by tauto
    exact ⟨_, by unfold OrderBook.submit; rw [if_neg h1, if_neg h2, if_pos h3]⟩
  refine ⟨herr, ?_⟩
  simp only [place_order, hb]
  by_cases hlim : o.order_type = OrderType.limit ∧ o.price = none
  · rw [if_pos hlim]
  · rw [if_neg hlim]
    obtain ⟨msg, hmsg⟩ := herr
    rw [hmsg]

/-- The malformed order of the C4 witness: a limit order without a price. -/
def c4Order : Order :=
  { order_id := 12, pair := "BTC-USD", side := Side.buy, order_type := OrderType.limit,
    price := none, amount := 3, submitted_at := 1, remaining_amount := 3, user_id := "v" }

/-- The registry of the C4 witness. -/
def c4Books : Registry := [("BTC-USD", OrderBook.empty "BTC-USD")]

theorem validation_rejects_before_mutation_witness :
    Registry.lookup c4Books c4Order.pair = some (OrderBook.empty "BTC-USD") ∧
    (c4Order.pair ≠ (OrderBook.empty "BTC-USD").pair ∨ c4Order.amount = 0 ∨
      (c4Order.order_type = OrderType.limit ∧ c4Order.price.getD 0 = 0)) ∧
    ((∃ msg, (OrderBook.empty "BTC-USD").submit c4Order =
        Except.error (EngineError.validation msg)) ∧
      (place_order c4Books c4Order).2 = c4Books) :=
  ⟨by rfl, by decide,
    validation_rejects_before_mutation c4Books (OrderBook.empty "BTC-USD") c4Order
      (by rfl) (by decide)⟩

/-- C5 counterexample: a book query for a pair absent from the registry
does not report an error at all — it succeeds with empty bids and asks,
contradicting the claim that both submission and query report an
UnknownPairError. -/
theorem unknown_pair_query_silently_defaults :
    get_order_book_endpoint [("BTC-USD", OrderBook.empty "BTC-USD")] "ETH-USD" =
      Except.ok { bids := [], asks := [] } ∧
    ∀ e, get_order_book_endpoint [("BTC-USD", OrderBook.empty "BTC-USD")] "ETH-USD" ≠
      Except.error e := by
  constructor
  · rfl
  · intro e h
    rw [show get_order_book_endpoint [("BTC-USD", OrderBook.empty "BTC-USD")] "ETH-USD" =
      Except.ok { bids := [], asks := [] } from rfl] at h
    exact Except.noConfusion h

/-- C5 amended: a submission naming an unknown pair fails with the 400
"Invalid trading pair" error and leaves the registry unchanged, while a
book query for an unknown pair silently defaults to empty bids and asks
instead of reporting an error. -/
theorem unknown_pair_reporting (books : Registry) (pair : String) (o : Order)
    (hp : Registry.lookup books pair = none) (ho : o.pair = pair) :
    get_order_book_endpoint books pair = Except.ok { bids := [], asks := [] } ∧
    place_order books o =
      (Except.error (HttpError.badRequest "Invalid trading pair"), books) := by
  constructor
  · simp only [get_order_book_endpoint, hp]
  · simp only [place_order, ho, hp]

/-- The probe order of the C5 witness, naming an unconfigured pair. -/
def c5Order : Order :=
  { order_id := 13, pair := "ETH-USD", side := Side.buy, order_type := OrderType.market,
    price := none, amount := 1, submitted_at := 1, remaining_amount := 1, user_id := "q" }

theorem unknown_pair_reporting_witness :
    Registry.lookup [("BTC-USD", OrderBook.empty "BTC-USD")] "ETH-USD" = none ∧
    c5Order.pair = "ETH-USD" ∧
    (get_order_book_endpoint [("BTC-USD", OrderBook.empty "BTC-USD")] "ETH-USD" =
        Except.ok { bids := [], asks := [] } ∧
      place_order [("BTC-USD", OrderBook.empty "BTC-USD")] c5Order =
        (Except.error (HttpError.badRequest "Invalid trading pair"),
          [("BTC-USD", OrderBook.empty "BTC-USD")])) :=
  ⟨by rfl, by rfl,
    unknown_pair_reporting [("BTC-USD", OrderBook.empty "BTC-USD")] "ETH-USD" c5Order
      (by rfl) (by rfl)⟩

/-- The resting sell of the C6 counterexample. -/
def c6Seller : Order :=
  { order_id := 5, pair := "BTC-USD", side := Side.sell, order_type := OrderType.limit,
    price := some 100, amount := 2, submitted_at := 1, remaining_amount := 2, user_id := "u2" }

/-- A BTC-USD book with one resting sell at 100. -/
def c6BookFull : OrderBook :=
  { pair := "BTC-USD", bids := [], asks := [(100, [c6Seller])], next_trade_id := 0 }

/-- The incoming buy of the C6 counterexample. -/
def c6Order : Order :=
  { order_id := 10, pair := "BTC-USD", side := Side.buy, order_type := OrderType.limit,
    price := some 100, amount := 1, submitted_at := 2, remaining_amount := 1, user_id := "u1" }

/-- C6 counterexample: the API response to a successful submission is
identical whether the order produced no trade (empty book: the order
rests) or one trade (crossing book), so the caller does not receive the
fills or the resting remainder — only a message and the order id. -/
theorem fills_not_returned_to_caller :
    (place_order [("BTC-USD", OrderBook.empty "BTC-USD")] c6Order).1 =
      (place_order [("BTC-USD", c6BookFull)] c6Order).1 ∧
    ((OrderBook.empty "BTC-USD").submit c6Order).map (fun r => r.1.length) = Except.ok 0 ∧
    (c6BookFull.submit c6Order).map (fun r => r.1.length) = Except.ok 1 :=
  ⟨rfl, rfl, rfl⟩

/-- C6 amended: on a successfully processed submission the caller
receives only the fixed success message and the order's id; the trades
and the resting remainder computed by the engine are not part of the
response. -/
theorem api_success_response_message_only (books : Registry) (o : Order)
    (resp : PlaceOrderResponse) (books2 : Registry)
    (h : place_order books o = (Except.ok resp, books2)) :
    resp = { message := "Order submitted successfully", order_id := o.order_id } := by
  unfold place_order at h
  cases hl : Registry.lookup books o.pair with
  | none =>
    rw [hl] at h
    simp at h
  | some book =>
    rw [hl] at h
    simp only [] at h
    by_cases hlim : o.order_type = OrderType.limit ∧ o.price = none
    · rw [if_pos hlim] at h
      simp at h
    · rw [if_neg hlim] at h
      cases hsub : book.submit o with
      | ok r =>
        rw [hsub] at h
        simp only [Prod.mk.injEq, Except.ok.injEq] at h
        exact h.1.symm
      | error e =>
        rw [hsub] at h
        simp at h

/-- The registry of the C6 witness. -/
def c6wBooks : Registry := [("BTC-USD", OrderBook.empty "BTC-USD")]

/-- The order of the C6 witness: a limit buy resting on the empty book. -/
def c6wOrder : Order :=
  { order_id := 7, pair := "BTC-USD", side := Side.buy, order_type := OrderType.limit,
    price := some 100, amount := 2, submitted_at := 3, remaining_amount := 2, user_id := "u" }

/-- The response of the C6 witness submission. -/
def c6wResp : PlaceOrderResponse := { message := "Order submitted successfully", order_id := 7 }

/-- The registry after the C6 witness submission. -/
def c6wBooks2 : Registry := (place_order c6wBooks c6wOrder).2

theorem api_success_response_message_only_witness :
    place_order c6wBooks c6wOrder = (Except.ok c6wResp, c6wBooks2) ∧
    c6wResp = { message := "Order submitted successfully", order_id := c6wOrder.order_id } :=
  ⟨by rfl, api_success_response_message_only c6wBooks c6wOrder c6wResp c6wBooks2 (by rfl)⟩

/-- C10 counterexample: with "BTC-USD" absent from the registry the
websocket loop sends no message at all — get_order_book_endpoint returns
the plain dict of api.py line 100, `.dict()` raises AttributeError and
the handler exits — refuting the claim that one update is sent per
iteration regardless of which pairs are configured. -/
theorem websocket_crashes_without_btc_usd :
    websocket_iteration [("ETH-USD", OrderBook.empty "ETH-USD")] = none ∧
    ∀ m : WsMessage × Nat,
      websocket_iteration [("ETH-USD", OrderBook.empty "ETH-USD")] ≠ some m := by
  constructor
  · rfl
  · intro m h
    rw [show websocket_iteration [("ETH-USD", OrderBook.empty "ETH-USD")] = none from rfl] at h
    exact Option.noConfusion h

/-- C10 amended: every message the /ws/marketdata loop sends carries the
order book data of the hard-coded pair "BTC-USD" only, and the iteration
depends only on the registry's "BTC-USD" entry, regardless of which
other pairs are configured or what the client asked for; when "BTC-USD"
is configured, exactly one update with that book's data is sent followed
by a one-second pause, while when "BTC-USD" is not configured the
handler crashes on AttributeError and no message is sent. -/
theorem websocket_sends_btc_usd_only (books books2 : Registry)
    (hsame : Registry.lookup books2 "BTC-USD" = Registry.lookup books "BTC-USD") :
    (∀ book, Registry.lookup books "BTC-USD" = some book →
      websocket_iteration books =
        some ({ type := "orderbook_update", data := book.get_order_book_data }, 1)) ∧
    (Registry.lookup books "BTC-USD" = none → websocket_iteration books = none) ∧
    websocket_iteration books2 = websocket_iteration books := by
  refine ⟨?_, ?_, ?_⟩
  · intro book hb
    unfold websocket_iteration
    rw [hb]
  · intro hb
    unfold websocket_iteration
    rw [hb]
  · unfold websocket_iteration
    rw [hsame]

/-- A registry with two configured pairs, for the C10 witness. -/
def c10Books : Registry :=
  [("BTC-USD", OrderBook.empty "BTC-USD"), ("ETH-USD", OrderBook.empty "ETH-USD")]

/-- A registry with only BTC-USD, agreeing with c10Books on that pair. -/
def c10Books2 : Registry := [("BTC-USD", OrderBook.empty "BTC-USD")]

theorem websocket_sends_btc_usd_only_witness :
    Registry.lookup c10Books2 "BTC-USD" = Registry.lookup c10Books "BTC-USD" ∧
    ((∀ book, Registry.lookup c10Books "BTC-USD" = some book →
      websocket_iteration c10Books =
        some ({ type := "orderbook_update", data := book.get_order_book_data }, 1)) ∧
    (Registry.lookup c10Books "BTC-USD" = none → websocket_iteration c10Books = none) ∧
    websocket_iteration c10Books2 = websocket_iteration c10Books) :=
  ⟨by rfl, websocket_sends_btc_usd_only c10Books c10Books2 (by rfl)⟩

set_option maxRecDepth 100000 in
/-- C7 counterexample: the settlement consumer's wei conversion of the
JSON price literal 1.1 (the exact decimal 11/10) computed with Python
float (IEEE-754 double) semantics yields 1100000000000000128 wei, not the
exact decimal value 1.1·10^18 = 1100000000000000000 — the arithmetic is
floating point and drifts, contradicting the claim that all price/amount
arithmetic uses a fixed-precision representation and never floating
point. -/
theorem wei_conversion_float_drift :
    toWei 11 10 ≠ 11 * 10 ^ 18 / 10 ∧ 11 * 10 ^ 18 / 10 = 1100000000000000000 := by
  constructor
  · decide
  · decide

set_option maxRecDepth 100000 in
/-- C7 amended: api.py and consumer.py represent prices and amounts as
Python floats (IEEE-754 doubles); the consumer's settlement conversion
`int(price * 10**18)` therefore rounds, and at price 1.1 produces exactly
1100000000000000128 wei. -/
theorem wei_conversion_value : toWei 11 10 = 1100000000000000128 := by
  decide

/-- C8: the consumer drops a body that is not valid JSON without requeue,
as claimed; but a JSON message missing the required "price" field is
requeued rather than dropped: dict.get returns None, `None * (10**18)`
raises TypeError, and the generic except-Exception handler nacks WITH
requeue (the dedicated except-KeyError drop branch is unreachable).  A
message with both numeric fields is processed and acknowledged. -/
theorem missing_price_message_requeued :
    on_message none = MsgOutcome.nackDrop ∧
    on_message
        (some [("trade_id", 7), ("buyer_user_id", 1), ("seller_user_id", 2), ("amount", 2)]) =
      MsgOutcome.nackRequeue ∧
    on_message (some [("trade_id", 7), ("price", 1), ("amount", 2)]) = MsgOutcome.ack :=
  ⟨rfl, rfl, rfl⟩

end CryptoSim
